import Mathlib

/-!
Shallow embedding of the ngraph IR-v10 serializer
(`inference-engine/src/transformations/src/transformations/serialize.cpp`)
and proofs about its specified behaviour.

Strings are modelled by Lean `String`, byte streams by `List Nat`
(the binary sink is append-only, so the current write position
`tellp()` is the length of the bytes written so far), and the XML
attribute list of a `<data>` element by an ordered `List (String × String)`.
Numeric values rendered into the document use the decimal rendering
`natDecimal` / `intDecimal` below, which models `std::to_string` and the
XML library's integer formatting.
-/

/-- Decimal digit list of a natural number, most-significant first
(`[0]` for zero, matching `std::to_string`). -/
def decDigits (n : Nat) : List Nat :=
  if n = 0 then [0] else (Nat.digits 10 n).reverse

/-- Decimal rendering of a natural number (digits most-significant first),
as produced by `std::to_string`. -/
def natDecimal (n : Nat) : String :=
  ⟨(decDigits n).map Nat.digitChar⟩

/-- Decimal rendering of an integer, as produced by `std::to_string`. -/
def intDecimal (i : Int) : String :=
  if i < 0 then "-" ++ natDecimal i.natAbs else natDecimal i.toNat

theorem digitChar_inj {d1 d2 : Nat} (h1 : d1 < 10) (h2 : d2 < 10)
    (h : Nat.digitChar d1 = Nat.digitChar d2) : d1 = d2 := by
  interval_cases d1 <;> interval_cases d2 <;> first | rfl | (exfalso; revert h; decide)

theorem map_digitChar_inj : ∀ (l1 l2 : List Nat), (∀ d ∈ l1, d < 10) →
    (∀ d ∈ l2, d < 10) → l1.map Nat.digitChar = l2.map Nat.digitChar → l1 = l2 := by
  intro l1
  induction l1 with
  | nil => intro l2 _ _ h; cases l2 <;> simp_all
  | cons a t ih =>
    intro l2 hb1 hb2 h
    cases l2 with
    | nil => simp at h
    | cons b t2 =>
      simp only [List.map_cons, List.cons.injEq] at h
      have hd : a = b := digitChar_inj (hb1 a (by simp)) (hb2 b (by simp)) h.1
      have ht : t = t2 := ih t2 (fun d hd => hb1 d (by simp [hd]))
        (fun d hd => hb2 d (by simp [hd])) h.2
      simp [hd, ht]

theorem digits_eq_zero_list {n : Nat} (h : Nat.digits 10 n = [0]) : n = 0 := by
  have h0 := Nat.ofDigits_digits 10 n
  rw [h] at h0
  simpa [Nat.ofDigits] using h0.symm

theorem decDigits_bound (n : Nat) : ∀ d ∈ decDigits n, d < 10 := by
  intro d hd
  unfold decDigits at hd
  by_cases h : n = 0
  · simp [h] at hd; omega
  · simp only [if_neg h] at hd
    exact Nat.digits_lt_base (by norm_num) (List.mem_reverse.mp hd)

theorem decDigits_inj : Function.Injective decDigits := by
  intro m n h
  unfold decDigits at h
  by_cases hm : m = 0 <;> by_cases hn : n = 0
  · omega
  · exfalso
    simp only [if_pos hm, if_neg hn] at h
    have hd : Nat.digits 10 n = [0] := by
      have := congrArg List.reverse h
      simpa using this.symm
    exact hn (digits_eq_zero_list hd)
  · exfalso
    simp only [if_neg hm, if_pos hn] at h
    have hd : Nat.digits 10 m = [0] := by
      have := congrArg List.reverse h
      simpa using this
    exact hm (digits_eq_zero_list hd)
  · simp only [if_neg hm, if_neg hn] at h
    have hd : Nat.digits 10 m = Nat.digits 10 n := by
      have := congrArg List.reverse h; simpa using this
    calc m = Nat.ofDigits 10 (Nat.digits 10 m) := (Nat.ofDigits_digits 10 m).symm
    _ = Nat.ofDigits 10 (Nat.digits 10 n) := by rw [hd]
    _ = n := Nat.ofDigits_digits 10 n

theorem natDecimal_inj : Function.Injective natDecimal := by
  intro m n h
  have hdata : (decDigits m).map Nat.digitChar = (decDigits n).map Nat.digitChar := by
    have := congrArg String.data h
    simpa [natDecimal] using this
  exact decDigits_inj
    (map_digitChar_inj _ _ (decDigits_bound m) (decDigits_bound n) hdata)

theorem string_append_cancel_left {a s t : String} (h : a ++ s = a ++ t) : s = t := by
  have hd : a.data ++ s.data = a.data ++ t.data := congrArg String.data h
  cases s; cases t
  exact congrArg String.mk (List.append_cancel_left hd)

/-- Translation table from ngraph operation type names to IR type names
(`translate_type_name_translator` in the source). -/
def translate_type_name_translator : List (String × String) :=
  [("Constant", "Const"), ("Relu", "ReLU"), ("Softmax", "SoftMax")]

/-- Translate an ngraph type name into the IR convention: identity except for
the fixed override table (`translate_type_name` in the source). -/
def translate_type_name (name : String) : String :=
  match translate_type_name_translator.find? (fun p => p.1 = name) with
  | some p => p.2
  | none => name

/-- Join a list of already-rendered values with a glue string
(helper `join` in the source, with its default glue being comma-space). -/
def join (c : List String) (glue : String) : String :=
  (c.foldl (fun (acc : String × String) v => (acc.1 ++ acc.2 ++ v, glue)) ("", "")).1

/-- The closed set of attribute value kinds handled by the serializer's
`AttributeVisitor` overloads.  Floating-point payloads (`double`,
`vector<float>`) are carried as their rendered text, since only their
textual form reaches the document.  `abuf` is a `void*` adapter that
dynamically casts to an `AlignedBuffer` (a raw byte payload); `aptrOther`
is a `void*` adapter of any other runtime type (the cast fails and the
visitor does nothing). -/
inductive AttrVal where
  | avoidKind : AttrVal
  | abuf (data : List Nat) : AttrVal
  | aptrOther : AttrVal
  | abool (b : Bool) : AttrVal
  | astr (s : String) : AttrVal
  | aint (i : Int) : AttrVal
  | adouble (rendered : String) : AttrVal
  | avint (l : List Int) : AttrVal
  | avuint (l : List Nat) : AttrVal
  | avfloat (rendered : List String) : AttrVal
  | avstr (l : List String) : AttrVal

/-- State threaded through `XmlSerializer`: the attribute fields appended to
the node's `<data>` element, the binary sink contents, and the node type
name reference (`m_node_type_name`), which the string overload may
overwrite for the `GenericIE` escape case. -/
structure VisitorState where
  fields : List (String × String)
  bin : List Nat
  type_name : String
deriving Repr, DecidableEq

/-- One `on_adapter` dispatch of `XmlSerializer`, by value kind.  Mirrors the
overload set in the source: the `void` overload ignores the attribute; the
`void*` overload writes the buffer (recording `offset` and `size`) only for
the `value` attribute of a node whose translated type name is `Const`; the
string overload implements the `GenericIE`/`__generic_ie_type__` override;
every other overload appends one rendered field. -/
def xml_on_adapter (name : String) (v : AttrVal) (st : VisitorState) : VisitorState :=
  match v with
  | .avoidKind => st
  | .aptrOther => st
  | .abuf data =>
    if name = "value" ∧ translate_type_name st.type_name = "Const" then
      { st with
        fields := st.fields ++
          [("offset", natDecimal st.bin.length), ("size", natDecimal data.length)],
        bin := st.bin ++ data }
    else st
  | .abool b =>
    { st with fields := st.fields ++ [(name, if b then "true" else "false")] }
  | .astr s =>
    if st.type_name = "GenericIE" ∧ name = "__generic_ie_type__" then
      { st with type_name := s }
    else
      { st with fields := st.fields ++ [(name, s)] }
  | .aint i => { st with fields := st.fields ++ [(name, intDecimal i)] }
  | .adouble r => { st with fields := st.fields ++ [(name, r)] }
  | .avint l =>
    { st with fields := st.fields ++ [(name, join (l.map intDecimal) ", ")] }
  | .avuint l =>
    { st with fields := st.fields ++ [(name, join (l.map natDecimal) ", ")] }
  | .avfloat l => { st with fields := st.fields ++ [(name, join l ", ")] }
  | .avstr l => { st with fields := st.fields ++ [(name, join l ", ")] }

/-- Visit a node's declared attributes in schema order
(`Node::visit_attributes` driving `XmlSerializer`). -/
def visit_attributes (attrs : List (String × AttrVal)) (st : VisitorState) :
    VisitorState :=
  attrs.foldl (fun s p => xml_on_adapter p.1 p.2 s) st

/-- C1: for a buffer-valued attribute, when the attribute name is `value` and
the node's translated type name is `Const`, the visitor appends `offset`
(the sink's current write position) and `size` (the buffer's byte count) as
two numeric fields and appends exactly the buffer's bytes to the sink, so
the sink's bytes at `[offset, offset+size)` equal the buffer; any other
buffer-valued attribute (wrong name or wrong node type) produces no fields
and writes no bytes. -/
theorem const_buffer_serialization
    (name type_name : String) (data : List Nat)
    (fields : List (String × String)) (bin : List Nat) :
    (name = "value" ∧ translate_type_name type_name = "Const" →
      xml_on_adapter name (.abuf data) ⟨fields, bin, type_name⟩ =
        ⟨fields ++ [("offset", natDecimal bin.length),
                    ("size", natDecimal data.length)],
          bin ++ data, type_name⟩ ∧
      (((bin ++ data).drop bin.length).take data.length = data)) ∧
    (¬ (name = "value" ∧ translate_type_name type_name = "Const") →
      xml_on_adapter name (.abuf data) ⟨fields, bin, type_name⟩ =
        ⟨fields, bin, type_name⟩) := by
  constructor
  · intro h
    refine ⟨?_, ?_⟩
    · simp only [xml_on_adapter, if_pos h]
    · rw [List.drop_left, List.take_length]
  · intro h
    simp only [xml_on_adapter, if_neg h]

/-- Witness for C1 at a concrete input: a two-byte buffer on a `Constant`
node with one byte already in the sink. -/
theorem const_buffer_serialization_witness :
    xml_on_adapter "value" (.abuf [7, 8]) ⟨[], [9], "Constant"⟩ =
      ⟨[("offset", "1"), ("size", "2")], [9, 7, 8], "Constant"⟩ ∧
    (([9, 7, 8].drop 1).take 2 = [7, 8]) := by
  have h := (const_buffer_serialization "value" "Constant" [7, 8] [] [9]).1
    ⟨rfl, by decide⟩
  have h1 : natDecimal 1 = "1" := by
    norm_num [natDecimal, decDigits, Nat.digits_def']; rfl
  have h2 : natDecimal 2 = "2" := by
    norm_num [natDecimal, decDigits, Nat.digits_def']; rfl
  constructor
  · have := h.1
    simp only [List.length_cons, List.length_nil, List.length] at this
    rw [this]
    simp [h1, h2]
  · exact h.2

/-- Resolve the op-set version label for a node (`get_opset_name` in the
source): the built-in sets `opset1..opset5` are checked oldest first and the
first match wins; otherwise the custom registry is scanned in its natural
iteration order; otherwise the sentinel `experimental` is returned.  The
membership tests of the five built-in sets (`contains_op_type`) are external
to the serializer and appear as the parameter `builtin_contains`; the custom
registry (`std::map`, iterated in its natural key order) appears as an
ordered association list of name/membership-test pairs. -/
def get_opset_name {α : Type} (builtin_contains : Nat → α → Bool)
    (custom_opsets : List (String × (α → Bool))) (n : α) : String :=
  match (List.range 5).find? (fun idx => builtin_contains idx n) with
  | some idx => "opset" ++ natDecimal (idx + 1)
  | none =>
    match custom_opsets.find? (fun p => p.2 n) with
    | some p => p.1
    | none => "experimental"

/-- C5: the op-set resolver returns the label of the oldest built-in set
whose membership test matches, even if the type is also in the custom
registry; with no built-in match it returns the name of the first matching
custom-registry entry in iteration order; with no match at all it returns
the sentinel `experimental`. -/
theorem opset_resolver_correct {α : Type} (bc : Nat → α → Bool)
    (custom : List (String × (α → Bool))) (n : α) :
    (∀ j, j < 5 → bc j n = true → (∀ k, k < j → bc k n = false) →
      get_opset_name bc custom n = "opset" ++ natDecimal (j + 1)) ∧
    ((∀ k, k < 5 → bc k n = false) →
      ∀ p, custom.find? (fun q => q.2 n) = some p →
        get_opset_name bc custom n = p.1) ∧
    ((∀ k, k < 5 → bc k n = false) → (∀ p ∈ custom, p.2 n = false) →
      get_opset_name bc custom n = "experimental") := by
  have hrange : List.range 5 = [0, 1, 2, 3, 4] := rfl
  refine ⟨?_, ?_, ?_⟩
  · intro j hj hbj hmin
    interval_cases j
    · simp [get_opset_name, hrange, List.find?, hbj]
    · have h0 := hmin 0 (by omega)
      simp [get_opset_name, hrange, List.find?, hbj, h0]
    · have h0 := hmin 0 (by omega); have h1 := hmin 1 (by omega)
      simp [get_opset_name, hrange, List.find?, hbj, h0, h1]
    · have h0 := hmin 0 (by omega); have h1 := hmin 1 (by omega)
      have h2 := hmin 2 (by omega)
      simp [get_opset_name, hrange, List.find?, hbj, h0, h1, h2]
    · have h0 := hmin 0 (by omega); have h1 := hmin 1 (by omega)
      have h2 := hmin 2 (by omega); have h3 := hmin 3 (by omega)
      simp [get_opset_name, hrange, List.find?, hbj, h0, h1, h2, h3]
  · intro hb p hp
    have h0 := hb 0 (by omega); have h1 := hb 1 (by omega)
    have h2 := hb 2 (by omega); have h3 := hb 3 (by omega)
    have h4 := hb 4 (by omega)
    simp [get_opset_name, hrange, List.find?, h0, h1, h2, h3, h4, hp]
  · intro hb hc
    have h0 := hb 0 (by omega); have h1 := hb 1 (by omega)
    have h2 := hb 2 (by omega); have h3 := hb 3 (by omega)
    have h4 := hb 4 (by omega)
    have hfind : custom.find? (fun q => q.2 n) = none :=
      List.find?_eq_none.mpr (fun p hp => by simp [hc p hp])
    simp [get_opset_name, hrange, List.find?, h0, h1, h2, h3, h4, hfind]

/-- Witness for C5 at concrete inputs: a type present only in the third
built-in set resolves to `opset3` despite a matching custom registry; a
type matching only the custom registry resolves to the registry entry name;
a type matching nothing resolves to `experimental`. -/
theorem opset_resolver_correct_witness :
    get_opset_name (fun i (_ : Nat) => i == 2) [("cust", fun _ => true)] 0 =
      "opset3" ∧
    get_opset_name (fun _ (_ : Nat) => false) [("cust", fun _ => true)] 0 =
      "cust" ∧
    get_opset_name (fun _ (_ : Nat) => false) [("cust", fun _ => false)] 0 =
      "experimental" := by
  refine ⟨?_, ?_, ?_⟩
  · have h := (opset_resolver_correct (fun i (_ : Nat) => i == 2)
      [("cust", fun _ => true)] 0).1 2 (by omega) (by decide)
      (fun k hk => by interval_cases k <;> decide)
    rw [h]
    norm_num [natDecimal, decDigits, Nat.digits_def']
    rfl
  · exact (opset_resolver_correct (fun _ (_ : Nat) => false)
      [("cust", fun _ => true)] 0).2.1 (fun k _ => rfl) ("cust", fun _ => true)
      (by simp [List.find?])
  · exact (opset_resolver_correct (fun _ (_ : Nat) => false)
      [("cust", fun _ => false)] 0).2.2 (fun k _ => rfl)
      (by intro p hp; simp at hp; simp [hp])

/-- Model of `std::string::rfind`: the position of the last occurrence of
`pat` as a contiguous substring of `s` (positions are tried from the
highest, `s.length`, down to `0`), or `none` (`npos`) if there is none. -/
def rfindSub (s pat : List Char) : Option Nat :=
  ((List.range (s.length + 1)).reverse).find? (fun i => pat.isPrefixOf (s.drop i))

theorem find_rev_range_eq (p : Nat → Bool) :
    ∀ n j, j ≤ n → p j = true → (∀ k, j < k → k ≤ n → p k = false) →
      ((List.range (n + 1)).reverse.find? p) = some j := by
  intro n
  induction n with
  | zero =>
    intro j hj hp _
    have : j = 0 := by omega
    subst this
    simp [List.find?, hp]
  | succ n ih =>
    intro j hj hp hhigh
    have hsplit : (List.range (n + 2)).reverse = (n + 1) :: (List.range (n + 1)).reverse := by
      rw [List.range_succ, List.reverse_append]
      rfl
    rw [hsplit]
    by_cases hje : j = n + 1
    · subst hje
      simp [List.find?, hp]
    · have hlast : p (n + 1) = false := hhigh (n + 1) (by omega) (by omega)
      rw [List.find?_cons, hlast]
      exact ih j (by omega) hp (fun k hk1 hk2 => hhigh k hk1 (by omega))

theorem rfindSub_ends_iff (s : List Char) (h4 : 4 ≤ s.length) :
    rfindSub s ".xml".data = some (s.length - 4) ↔
      ∃ pre, s = pre ++ ".xml".data := by
  constructor
  · intro h
    unfold rfindSub at h
    have hpref := List.find?_some h
    have hfx : ".xml".data <+: s.drop (s.length - 4) :=
      List.isPrefixOf_iff_prefix.mp hpref
    have hlen : (s.drop (s.length - 4)).length = 4 := by
      simp [List.length_drop]; omega
    have heq : ".xml".data = s.drop (s.length - 4) :=
      List.IsPrefix.eq_of_length hfx (by rw [hlen]; rfl)
    refine ⟨s.take (s.length - 4), ?_⟩
    rw [heq]
    exact (List.take_append_drop (s.length - 4) s).symm
  · rintro ⟨pre, rfl⟩
    have hplen : (pre ++ ".xml".data).length = pre.length + 4 := by
      simp
    unfold rfindSub
    rw [hplen]
    have hsub : pre.length + 4 - 4 = pre.length := by omega
    rw [hsub]
    apply find_rev_range_eq
    · omega
    · rw [List.drop_left]
      exact List.isPrefixOf_iff_prefix.mpr (List.prefix_refl _)
    · intro k hk1 hk2
      cases hb : (".xml".data.isPrefixOf ((pre ++ ".xml".data).drop k)) with
      | false => rfl
      | true =>
        exfalso
        have hpref : ".xml".data <+: (pre ++ ".xml".data).drop k :=
          List.isPrefixOf_iff_prefix.mp hb
        have := hpref.length_le
        simp [List.length_drop] at this
        omega

/-- Validation of the structural output path (`valid_xml_path` in the
source): the path must be longer than four characters and its last
occurrence of `.xml` must sit exactly at the end; either violation is a
fatal precondition error (`NGRAPH_CHECK`), modelled as `Except.error`. -/
def valid_xml_path (path : String) : Except String String :=
  if path.length > 4 then
    if rfindSub path.data ".xml".data = some (path.length - 4) then
      Except.ok path
    else
      Except.error ("Path for xml file does not contain file name with xml extension: " ++ path)
  else
    Except.error ("Path for xml file is to short: " ++ path)

/-- Derivation of the binary output path (`provide_bin_path` in the source):
a non-empty explicit path is kept; an omitted (empty) path is derived from
the xml path by replacing its last three characters with `bin`. -/
def provide_bin_path (xmlPath binPath : String) : String :=
  if binPath ≠ "" then binPath
  else ⟨xmlPath.data.take (xmlPath.length - 3) ++ "bin".data⟩

/-- The `pass::Serialize` constructor: validates the xml path first (a
failure aborts construction before any file is opened — all I/O lives in
`run_on_function`), then derives the binary path. -/
def serialize_construct (xmlPath binPath : String) :
    Except String (String × String) :=
  match valid_xml_path xmlPath with
  | Except.error e => Except.error e
  | Except.ok p => Except.ok (p, provide_bin_path xmlPath binPath)

/-- C10: a structural output path that does not end in `.xml`, or is not
longer than that extension alone, makes the `Serialize` constructor fail
with a fatal precondition error (the constructor performs no I/O — file
streams are only opened later in `run_on_function`); when the binary path
is omitted (empty), it is derived from the structural path by replacing
the `.xml` extension with `.bin`. -/
theorem serialize_path_validation (xmlPath binPath : String) :
    (¬ (4 < xmlPath.length ∧ ∃ pre, xmlPath.data = pre ++ ".xml".data) →
      ∃ e, serialize_construct xmlPath binPath = Except.error e) ∧
    (∀ pre, xmlPath.data = pre ++ ".xml".data → pre ≠ [] →
      serialize_construct xmlPath "" =
        Except.ok (xmlPath, ⟨pre ++ ".bin".data⟩)) := by
  have hdl : xmlPath.data.length = xmlPath.length := rfl
  constructor
  · intro hnot
    by_cases hlen : xmlPath.length > 4
    · have hnopre : ¬ ∃ pre, xmlPath.data = pre ++ ".xml".data :=
        fun hpre => hnot ⟨hlen, hpre⟩
      have h4 : 4 ≤ xmlPath.data.length := by omega
      have hrf : ¬ (rfindSub xmlPath.data ".xml".data =
          some (xmlPath.length - 4)) := by
        intro hc
        exact hnopre ((rfindSub_ends_iff xmlPath.data h4).mp hc)
      have herr : serialize_construct xmlPath binPath = Except.error
          ("Path for xml file does not contain file name with xml extension: "
            ++ xmlPath) := by
        simp only [serialize_construct, valid_xml_path, if_pos hlen, if_neg hrf]
      exact ⟨_, herr⟩
    · have herr : serialize_construct xmlPath binPath = Except.error
          ("Path for xml file is to short: " ++ xmlPath) := by
        simp only [serialize_construct, valid_xml_path, if_neg hlen]
      exact ⟨_, herr⟩
  · intro pre hdata hpre
    have hlen4 : xmlPath.length = pre.length + 4 := by
      rw [← hdl, hdata]
      simp
    have hplen : 0 < pre.length := List.length_pos.mpr hpre
    have hlen : xmlPath.length > 4 := by omega
    have h4 : 4 ≤ xmlPath.data.length := by omega
    have hrf : rfindSub xmlPath.data ".xml".data =
        some (xmlPath.length - 4) :=
      (rfindSub_ends_iff xmlPath.data h4).mpr ⟨pre, hdata⟩
    simp only [serialize_construct, valid_xml_path, if_pos hlen, if_pos hrf]
    have hbin : provide_bin_path xmlPath "" = ⟨pre ++ ".bin".data⟩ := by
      have htake : xmlPath.data.take (xmlPath.length - 3) = pre ++ ['.'] := by
        rw [hdata, hlen4]
        have h1 : pre.length + 4 - 3 = pre.length + 1 := by omega
        rw [h1, List.take_append_eq_append_take,
            List.take_of_length_le (by omega)]
        have h2 : pre.length + 1 - pre.length = 1 := by omega
        rw [h2]
        rfl
      simp only [provide_bin_path, if_neg (by decide : ¬ ("" ≠ ""))]
      rw [htake]
      apply congrArg String.mk
      rw [List.append_assoc]
      rfl
    rw [hbin]

/-- Witness for C10 at concrete inputs: `ab` (too short, no extension) is
rejected; for `a.xml` with the binary path omitted, the derived binary
path is `a.bin`. -/
theorem serialize_path_validation_witness :
    (∃ e, serialize_construct "ab" "x.bin" = Except.error e) ∧
    serialize_construct "a.xml" "" = Except.ok ("a.xml", "a.bin") := by
  constructor
  · exact (serialize_path_validation "ab" "x.bin").1
      (by rintro ⟨h1, -⟩; revert h1; decide)
  · have h := (serialize_path_validation "a.xml" "").2 ['a'] rfl (by decide)
    exact h

theorem suffix_inj (base : String) :
    Function.Injective (fun k => base ++ natDecimal k) := by
  intro m n h
  exact natDecimal_inj (string_append_cancel_left h)

theorem countP_mem_le (u : List String) (base : String) (s : Nat) :
    ((List.range s).countP (fun k => decide ((base ++ natDecimal k) ∈ u))) ≤
      u.length := by
  set p := fun k => decide ((base ++ natDecimal k) ∈ u) with hp
  have h1 : ((List.range s).countP p) = ((List.range s).filter p).length :=
    List.countP_eq_length_filter _ _
  set l := ((List.range s).filter p).map (fun k => base ++ natDecimal k) with hl
  have h2 : l.length = ((List.range s).filter p).length := by simp [hl]
  have hnd : l.Nodup := by
    apply List.Nodup.map (suffix_inj base)
    exact (List.nodup_range s).filter _
  have hmem : ∀ x ∈ l, x ∈ u := by
    intro x hx
    rw [hl] at hx
    obtain ⟨k, hk, rfl⟩ := List.mem_map.mp hx
    have := List.of_mem_filter hk
    simpa [hp] using this
  have hcard : l.length ≤ u.length := by
    calc l.length = l.toFinset.card := (List.toFinset_card_of_nodup hnd).symm
    _ ≤ u.toFinset.card := Finset.card_le_card (fun x hx => by
        rw [List.mem_toFinset] at hx ⊢; exact hmem x hx)
    _ ≤ u.length := u.toFinset_card_le
  omega

/-- Recursive suffix search of the unique-name shim
(`generate_unique_name` in the source): append the current integer suffix
to the base name and retry with the next suffix while the result is
already taken.  Termination holds because the rendered candidates are
pairwise distinct, so at most `unique_names.length` suffixes can collide. -/
def generate_unique_name (unique_names : List String) (base_name : String)
    (suffix : Nat) : String :=
  let new_name := base_name ++ natDecimal suffix
  if new_name ∈ unique_names then
    generate_unique_name unique_names base_name (suffix + 1)
  else
    new_name
termination_by unique_names.length + 1 -
  ((List.range suffix).countP (fun k => decide ((base_name ++ natDecimal k) ∈ unique_names)))
decreasing_by
  rename_i h
  have hstep : ((List.range (suffix + 1)).countP
      (fun k => decide ((base_name ++ natDecimal k) ∈ unique_names))) =
      ((List.range suffix).countP
        (fun k => decide ((base_name ++ natDecimal k) ∈ unique_names))) + 1 := by
    rw [List.range_succ, List.countP_append]
    simp [h]
  have hle := countP_mem_le unique_names base_name (suffix + 1)
  omega

/-- Allocation of one persisted node name (`get_node_unique_name` in the
source): a candidate name not yet in the registered set is returned
unchanged; a colliding candidate goes through the suffix search starting
at `0`.  The returned name is registered.  The set of registered names is
modelled as a list whose membership is the `unordered_set` membership. -/
def get_node_unique_name (unique_names : List String) (name : String) :
    String × List String :=
  if name ∈ unique_names then
    let n := generate_unique_name unique_names name 0
    (n, n :: unique_names)
  else
    (name, name :: unique_names)

/-- Feed a sequence of candidate names through one allocator lifetime
(a fresh `unique_names` set per serialization call) and collect the
returned names in order. -/
def run_allocator_aux (cands : List String) (st : List String × List String) :
    List String × List String :=
  match cands with
  | [] => st
  | c :: rest =>
    let r := get_node_unique_name st.2 c
    run_allocator_aux rest (st.1 ++ [r.1], r.2)

/-- Returned names, in order, for a candidate sequence given to a fresh
allocator. -/
def run_allocator (cands : List String) : List String :=
  (run_allocator_aux cands ([], [])).1

theorem generate_unique_name_spec (u : List String) (base : String) :
    ∀ s, ∃ k, s ≤ k ∧ generate_unique_name u base s = base ++ natDecimal k ∧
      (base ++ natDecimal k) ∉ u ∧
      ∀ j, s ≤ j → j < k → (base ++ natDecimal j) ∈ u := by
  intro s
  induction s using generate_unique_name.induct u base with
  | case1 s nn hmem ih =>
    obtain ⟨k, hk1, hk2, hk3, hk4⟩ := ih
    refine ⟨k, by omega, ?_, hk3, ?_⟩
    · rw [generate_unique_name, if_pos hmem]
      exact hk2
    · intro j hj1 hj2
      by_cases hjs : j = s
      · subst hjs; exact hmem
      · exact hk4 j (by omega) hj2
  | case2 s nn hmem =>
    refine ⟨s, Nat.le_refl s, ?_, hmem, ?_⟩
    · rw [generate_unique_name, if_neg hmem]
    · intro j hj1 hj2; omega

theorem get_node_unique_name_spec (s : List String) (c : String) :
    (get_node_unique_name s c).1 ∉ s ∧
    (get_node_unique_name s c).2 = (get_node_unique_name s c).1 :: s ∧
    (c ∉ s → (get_node_unique_name s c).1 = c) ∧
    (c ∈ s → ∃ k, (get_node_unique_name s c).1 = c ++ natDecimal k ∧
      (c ++ natDecimal k) ∉ s ∧ ∀ j, j < k → (c ++ natDecimal j) ∈ s) := by
  by_cases h : c ∈ s
  · obtain ⟨k, hk0, hkeq, hknot, hkmin⟩ := generate_unique_name_spec s c 0
    have h1 : (get_node_unique_name s c).1 = generate_unique_name s c 0 := by
      simp [get_node_unique_name, if_pos h]
    have h2 : (get_node_unique_name s c).2 = (get_node_unique_name s c).1 :: s := by
      simp [get_node_unique_name, if_pos h]
    refine ⟨?_, h2, fun hc => absurd h hc,
      fun _ => ⟨k, ?_, hknot, fun j hj => hkmin j (Nat.zero_le j) hj⟩⟩
    · rw [h1, hkeq]; exact hknot
    · rw [h1, hkeq]
  · have h1 : (get_node_unique_name s c).1 = c := by
      simp [get_node_unique_name, if_neg h]
    have h2 : (get_node_unique_name s c).2 = (get_node_unique_name s c).1 :: s := by
      simp [get_node_unique_name, if_neg h]
    exact ⟨by rw [h1]; exact h, h2, fun _ => h1, fun hc => absurd hc h⟩

theorem run_allocator_aux_append (c1 c2 : List String)
    (st : List String × List String) :
    run_allocator_aux (c1 ++ c2) st = run_allocator_aux c2 (run_allocator_aux c1 st) := by
  induction c1 generalizing st with
  | nil => simp [run_allocator_aux]
  | cons c rest ih => simp [run_allocator_aux, ih]

theorem run_allocator_aux_inv (cands : List String) :
    ∀ st : List String × List String, (∀ x, x ∈ st.2 ↔ x ∈ st.1) →
      ∀ x, x ∈ (run_allocator_aux cands st).2 ↔ x ∈ (run_allocator_aux cands st).1 := by
  induction cands with
  | nil => intro st h x; exact h x
  | cons c rest ih =>
    intro st h x
    simp only [run_allocator_aux]
    apply ih
    intro y
    have hr := (get_node_unique_name_spec st.2 c).2.1
    rw [hr]
    simp only [List.mem_cons, List.mem_append, List.mem_singleton, h y]
    tauto

/-- C3: within one allocator lifetime, each returned name is distinct from
all previously returned names; a candidate not previously returned is
returned unchanged; a colliding candidate is returned with the smallest
integer suffix (starting at 0) whose concatenation with the candidate has
not been returned before. -/
theorem unique_name_allocator_correct (pre : List String) (c : String) :
    ∃ out, run_allocator (pre ++ [c]) = run_allocator pre ++ [out] ∧
      out ∉ run_allocator pre ∧
      (c ∉ run_allocator pre → out = c) ∧
      (c ∈ run_allocator pre →
        ∃ k, out = c ++ natDecimal k ∧ (c ++ natDecimal k) ∉ run_allocator pre ∧
          ∀ j, j < k → (c ++ natDecimal j) ∈ run_allocator pre) := by
  have hinv : ∀ x, x ∈ (run_allocator_aux pre ([], [])).2 ↔
      x ∈ (run_allocator_aux pre ([], [])).1 :=
    run_allocator_aux_inv pre ([], []) (by simp)
  have hspec := get_node_unique_name_spec (run_allocator_aux pre ([], [])).2 c
  refine ⟨(get_node_unique_name (run_allocator_aux pre ([], [])).2 c).1, ?_, ?_, ?_, ?_⟩
  · show (run_allocator_aux (pre ++ [c]) ([], [])).1 = _
    rw [run_allocator_aux_append]
    simp only [run_allocator_aux]
    rfl
  · intro hmem
    exact hspec.1 ((hinv _).mpr hmem)
  · intro hnot
    exact hspec.2.2.1 (fun hc => hnot ((hinv c).mp hc))
  · intro hmem
    obtain ⟨k, hkeq, hknot, hkmin⟩ := hspec.2.2.2 ((hinv c).mpr hmem)
    exact ⟨k, hkeq, fun hc => hknot ((hinv _).mpr hc),
      fun j hj => (hinv _).mp (hkmin j hj)⟩

/-- Witness for C3 at a concrete input: feeding `conv` twice to a fresh
allocator returns `conv` then `conv0`. -/
theorem unique_name_allocator_correct_witness :
    run_allocator (["conv"] ++ ["conv"]) = run_allocator ["conv"] ++ ["conv0"] ∧
    "conv0" ∉ run_allocator ["conv"] := by
  obtain ⟨out, heq, hnot, hunch, hcoll⟩ := unique_name_allocator_correct ["conv"] "conv"
  have hpre : run_allocator ["conv"] = ["conv"] := rfl
  have hm : "conv" ∈ run_allocator ["conv"] := by rw [hpre]; simp
  obtain ⟨k, hkeq, hknot, hkmin⟩ := hcoll hm
  have hk0 : k = 0 := by
    by_contra hk
    have h0 := hkmin 0 (Nat.pos_of_ne_zero hk)
    rw [hpre] at h0
    have hcv : "conv" ++ natDecimal 0 = "conv0" := rfl
    rw [hcv] at h0
    simp only [List.mem_singleton] at h0
    exact absurd h0 (by decide)
  subst hk0
  have hout : out = "conv0" := hkeq
  rw [hout] at heq hnot
  exact ⟨heq, hnot⟩

/-- Runtime-info values (`std::shared_ptr<Variant>`): the exec-graph writer
only recognises string-valued variants (`VariantImpl<std::string>`);
every other dynamic type is `vother`. -/
inductive RTVariant where
  | vstr (s : String) : RTVariant
  | vother : RTVariant
deriving Repr, DecidableEq

/-- A node of the graph as the serializer sees it.  `ident` is the node's
identity (the C++ object address): distinct nodes have distinct
identities.  `inputs` lists, per input port in order, the source output it
is connected to as (source node identity, source output index);
`get_input_size()` is `inputs.length`.  `attrs` is the schema-ordered
typed attribute set delivered by `visit_attributes`, and `rt_info` the
string-keyed runtime-info map in its iteration order. -/
structure WNode where
  ident : Nat
  type_name : String
  friendly_name : String
  is_param : Bool
  inputs : List (Nat × Nat)
  rt_info : List (String × RTVariant)
  attrs : List (String × AttrVal)

/-- A graph (`ngraph::Function`): its ordered topological traversal
(`get_ordered_ops`).  `get_ops` visits the same node set, so the
exec-graph detection is modelled over the same list. -/
structure WFunction where
  ops : List WNode

/-- An edge record (`struct Edge` in the source). -/
structure Edge where
  from_layer : Nat
  from_port : Nat
  to_layer : Nat
  to_port : Nat
deriving Repr, DecidableEq

/-- Layer-id assignment (`create_layer_ids` in the source): enumerate the
ordered traversal once, assigning consecutive ids starting from 0.  The
`unordered_map` keyed by node identity is modelled as the association
list in insertion order. -/
def create_layer_ids (f : WFunction) : List (Nat × Nat) :=
  f.ops.enum.map (fun p => (p.2.ident, p.1))

/-- Lookup in the modelled `unordered_map`: the most recent binding wins
(`operator[]` overwrites), hence the search over the reversed insertion
order. -/
def umap_find (m : List (Nat × Nat)) (k : Nat) : Option Nat :=
  (m.reverse.find? (fun p => p.1 == k)).map (fun p => p.2)

/-- Recover a node from its identity.  In C++ the edge loop holds a pointer
to the source node; the model stores identities, so the node is found by
identity in the traversal (the same node, since identities are unique). -/
def node_of (f : WFunction) (ident : Nat) : Option WNode :=
  f.ops.find? (fun m => m.ident == ident)

/-- One edge record for one input port (`create_edge_mapping` loop body):
the `NGRAPH_CHECK` failures on a missing layer id abort serialization
(`none`); the source port number is the source node's input-port count
plus the source output index. -/
def edge_of_input (layer_ids : List (Nat × Nat)) (f : WFunction)
    (node : WNode) (ip : Nat × (Nat × Nat)) : Option Edge := do
  let fromL ← umap_find layer_ids ip.2.1
  let toL ← umap_find layer_ids node.ident
  let src ← node_of f ip.2.1
  pure ⟨fromL, src.inputs.length + ip.2.2, toL, ip.1⟩

/-- Edges contributed by one node: Parameter nodes are skipped; every
input port of any other node contributes exactly one edge (no
deduplication). -/
def node_edges (layer_ids : List (Nat × Nat)) (f : WFunction)
    (node : WNode) : Option (List Edge) :=
  if node.is_param then some []
  else node.inputs.enum.mapM (edge_of_input layer_ids f node)

/-- The edge list as discovered by `create_edge_mapping`, before the final
sort: nodes in traversal order, inputs in port order. -/
def create_edge_list (layer_ids : List (Nat × Nat)) (f : WFunction) :
    Option (List Edge) :=
  (f.ops.mapM (node_edges layer_ids f)).map List.flatten

/-- Result relation of `create_edge_mapping`: after discovery the vector is
passed to `std::sort` with comparator `a.from_layer < b.from_layer`.
`std::sort` guarantees only that the result is a permutation of the input
that is sorted with respect to the comparator — it is not stable — so the
function denotes a relation between the graph and the possible sorted
outputs. -/
def create_edge_mapping_rel (layer_ids : List (Nat × Nat)) (f : WFunction)
    (result : List Edge) : Prop :=
  ∃ unsorted, create_edge_list layer_ids f = some unsorted ∧
    result.Perm unsorted ∧
    result.Pairwise (fun a b => a.from_layer ≤ b.from_layer)

/-- Detection of the execution-statistics variant (`is_exec_graph` in the
source): some operation's runtime info carries the key `execTimeMcs`. -/
def is_exec_graph (f : WFunction) : Bool :=
  f.ops.any (fun op => op.rt_info.any (fun p => p.1 == "execTimeMcs"))

/-- Per-node rendering in execution-statistics mode
(`visit_exec_graph_node` in the source): every string-valued runtime-info
entry becomes a field, except `layerType`, whose value instead replaces
the node type name; non-string entries are skipped. -/
def visit_exec_graph_node (rt : List (String × RTVariant))
    (fields : List (String × String)) (tn : String) :
    List (String × String) × String :=
  rt.foldl (fun acc p =>
    match p.2 with
    | .vstr v =>
      if p.1 = "layerType" then (acc.1, v) else (acc.1 ++ [(p.1, v)], acc.2)
    | .vother => acc) (fields, tn)

/-- One layer record of the structural document: numeric id, unique name,
op-set version (absent in exec mode), final (translated) type name, and
the `<data>` attribute fields (an empty list stands for the removed empty
`<data>` element).  Port lists carry no information the claims mention
and are omitted from the record. -/
structure LayerRecord where
  id : Nat
  name : String
  version : Option String
  type_name : String
  fields : List (String × String)
deriving Repr, DecidableEq

/-- One iteration of the `ngfunction_2_irv10` node loop: look up the layer
id (`NGRAPH_CHECK` aborts on a miss), allocate the unique name, emit the
version attribute outside exec mode, fill the `<data>` fields through
`visit_exec_graph_node` (exec mode) or the `XmlSerializer` visitor, and
render the final type attribute through the type-name translator.  State:
(records so far, registered unique names, binary sink).  Every node is
assumed to support attribute visitation (`visit_attributes` returning
false would abort; no claim exercises that path). -/
def write_layer (exec : Bool) (builtin_contains : Nat → WNode → Bool)
    (custom : List (String × (WNode → Bool))) (layer_ids : List (Nat × Nat))
    (st : List LayerRecord × List String × List Nat) (node : WNode) :
    Option (List LayerRecord × List String × List Nat) := do
  let id ← umap_find layer_ids node.ident
  let r := get_node_unique_name st.2.1 node.friendly_name
  let version := if exec then none else
    some (get_opset_name builtin_contains custom node)
  let visited :=
    if exec then
      let p := visit_exec_graph_node node.rt_info [] node.type_name
      (p.1, st.2.2, p.2)
    else
      let vst := visit_attributes node.attrs ⟨[], st.2.2, node.type_name⟩
      (vst.fields, vst.bin, vst.type_name)
  pure (st.1 ++ [⟨id, r.1, version, translate_type_name visited.2.2, visited.1⟩],
    r.2, visited.2.1)

/-- The layer records and binary sink produced by the node loop of
`ngfunction_2_irv10` (the edge list is covered separately by
`create_edge_mapping_rel`). -/
def ngfunction_layers (builtin_contains : Nat → WNode → Bool)
    (custom : List (String × (WNode → Bool))) (f : WFunction) :
    Option (List LayerRecord × List Nat) := do
  let st ← f.ops.foldlM
    (write_layer (is_exec_graph f) builtin_contains custom (create_layer_ids f))
    ([], [], [])
  pure (st.1, st.2.2)

/-- The two sample graphs used by the concrete witnesses: a Parameter node
feeding one consumer, and a two-output producer feeding both inputs of one
consumer. -/
def sampleGraph : WFunction :=
  ⟨[⟨0, "Parameter", "p", true, [], [], []⟩,
    ⟨1, "Relu", "r", false, [(0, 0)], [], []⟩]⟩

def sampleGraphFanOut : WFunction :=
  ⟨[⟨0, "Split", "s", false, [], [], []⟩,
    ⟨1, "Concat", "c", false, [(0, 0), (0, 1)], [], []⟩]⟩

theorem create_layer_ids_snd (f : WFunction) :
    (create_layer_ids f).map (fun p => p.2) = List.range f.ops.length := by
  unfold create_layer_ids
  rw [List.map_map]
  have h : ((fun p : Nat × Nat => p.2) ∘ (fun p : Nat × WNode => (p.2.ident, p.1))) =
      Prod.fst := rfl
  rw [h, List.enum_map_fst]

theorem umap_find_eq (m : List (Nat × Nat)) (k v : Nat)
    (hmem : (k, v) ∈ m) (huniq : ∀ p ∈ m, p.1 = k → p = (k, v)) :
    umap_find m k = some v := by
  unfold umap_find
  have hsome : (m.reverse.find? (fun p => p.1 == k)).isSome := by
    rw [List.find?_isSome]
    exact ⟨(k, v), List.mem_reverse.mpr hmem, by simp⟩
  obtain ⟨p, hp⟩ := Option.isSome_iff_exists.mp hsome
  have hpm : p ∈ m.reverse := List.mem_of_find?_eq_some hp
  have hpk : p.1 = k := by simpa using List.find?_some hp
  have hpv := huniq p (List.mem_reverse.mp hpm) hpk
  rw [hp, hpv]
  rfl

theorem umap_find_layer (f : WFunction)
    (hnd : (f.ops.map (fun n => n.ident)).Nodup)
    (j : Nat) (hj : j < f.ops.length) :
    umap_find (create_layer_ids f) ((f.ops.get ⟨j, hj⟩).ident) = some j := by
  apply umap_find_eq
  · unfold create_layer_ids
    apply List.mem_map.mpr
    refine ⟨(j, f.ops.get ⟨j, hj⟩), ?_, rfl⟩
    apply List.mem_enum_iff_getElem?.mpr
    simp [hj, List.getElem?_eq_getElem, List.get_eq_getElem]
  · intro p hp hpk
    unfold create_layer_ids at hp
    obtain ⟨q, hq, rfl⟩ := List.mem_map.mp hp
    have hq' := List.mem_enum_iff_getElem?.mp hq
    have hq1 : q.1 < f.ops.length := by
      by_contra hc
      rw [List.getElem?_eq_none (by omega)] at hq'
      exact Option.noConfusion hq'
    have hq2 : f.ops.get ⟨q.1, hq1⟩ = q.2 := by
      rw [List.get_eq_getElem]
      have := List.getElem?_eq_getElem hq1
      rw [this] at hq'
      exact Option.some.inj hq'
    have hmaps : (f.ops.map (fun n => n.ident)).get
        ⟨q.1, by simpa using hq1⟩ =
        (f.ops.map (fun n => n.ident)).get ⟨j, by simpa using hj⟩ := by
      simp only [List.get_eq_getElem, List.getElem_map]
      have h1 : f.ops[q.1] = q.2 := by
        simpa [List.get_eq_getElem] using hq2
      rw [h1]
      simpa [List.get_eq_getElem] using hpk
    have hqj : q.1 = j := by
      have := (List.Nodup.get_inj_iff hnd).mp hmaps
      simpa using this
    subst hqj
    rw [hq2]

theorem mapM_option_mem {α β : Type} {g : α → Option β} :
    ∀ {l : List α} {res : List β}, l.mapM g = some res →
      ∀ b ∈ res, ∃ a ∈ l, g a = some b := by
  intro l
  induction l with
  | nil =>
    intro res h b hb
    simp only [List.mapM_nil, pure, Option.some.injEq] at h
    subst h
    simp at hb
  | cons a t ih =>
    intro res h b hb
    rw [List.mapM_cons] at h
    cases hga : g a with
    | none => rw [hga] at h; simp at h
    | some x =>
      rw [hga] at h
      cases hmt : t.mapM g with
      | none => rw [hmt] at h; simp at h
      | some xs =>
        rw [hmt] at h
        have hres : res = x :: xs := by
          simpa [Option.bind] using h.symm
        subst hres
        rcases List.mem_cons.mp hb with hb1 | hb2
        · exact ⟨a, by simp, by rw [hga, hb1]⟩
        · obtain ⟨a2, ha2, hga2⟩ := ih hmt b hb2
          exact ⟨a2, by simp [ha2], hga2⟩

theorem edge_of_input_some {layer_ids : List (Nat × Nat)} {f : WFunction}
    {node : WNode} {ip : Nat × (Nat × Nat)} {e : Edge}
    (h : edge_of_input layer_ids f node ip = some e) :
    ∃ fromL toL src, umap_find layer_ids ip.2.1 = some fromL ∧
      umap_find layer_ids node.ident = some toL ∧
      node_of f ip.2.1 = some src ∧
      e = ⟨fromL, src.inputs.length + ip.2.2, toL, ip.1⟩ := by
  unfold edge_of_input at h
  cases h1 : umap_find layer_ids ip.2.1 with
  | none => rw [h1] at h; simp at h
  | some fromL =>
    rw [h1] at h
    cases h2 : umap_find layer_ids node.ident with
    | none => rw [h2] at h; simp at h
    | some toL =>
      rw [h2] at h
      cases h3 : node_of f ip.2.1 with
      | none => rw [h3] at h; simp at h
      | some src =>
        rw [h3] at h
        refine ⟨fromL, toL, src, rfl, rfl, rfl, ?_⟩
        have := h.symm
        simpa [Option.bind, pure] using this

/-- C2: enumerating the topological ordering assigns the layer ids
`0..N-1` in order with no gaps or duplicates (each node looks up exactly
its position), and every computed edge goes from a node that strictly
precedes the destination node in that ordering.  Hypotheses: node
identities are distinct (they are C++ object addresses), and the ordered
traversal is a valid topological order (every input's source node occurs
strictly earlier). -/
theorem layer_ids_topological (f : WFunction)
    (hnd : (f.ops.map (fun n => n.ident)).Nodup)
    (htopo : ∀ j (hj : j < f.ops.length), ∀ p ∈ (f.ops.get ⟨j, hj⟩).inputs,
      ∃ i, ∃ hij : i < j, (f.ops.get ⟨i, Nat.lt_trans hij hj⟩).ident = p.1) :
    ((create_layer_ids f).map (fun p => p.2) = List.range f.ops.length ∧
      ∀ j (hj : j < f.ops.length),
        umap_find (create_layer_ids f) ((f.ops.get ⟨j, hj⟩).ident) = some j) ∧
    ∀ res, create_edge_mapping_rel (create_layer_ids f) f res →
      ∀ e ∈ res, e.from_layer < e.to_layer := by
  refine ⟨⟨create_layer_ids_snd f, fun j hj => umap_find_layer f hnd j hj⟩, ?_⟩
  rintro res ⟨unsorted, hun, hperm, -⟩ e he
  have he2 : e ∈ unsorted := hperm.mem_iff.mp he
  unfold create_edge_list at hun
  cases hm : f.ops.mapM (node_edges (create_layer_ids f) f) with
  | none => rw [hm] at hun; simp at hun
  | some ls =>
    rw [hm] at hun
    simp only [Option.map_some', Option.some.injEq] at hun
    subst hun
    obtain ⟨lst, hlst, helst⟩ := List.mem_flatten.mp he2
    obtain ⟨node, hnodemem, hnode⟩ := mapM_option_mem hm lst hlst
    unfold node_edges at hnode
    by_cases hp : node.is_param
    · rw [if_pos hp] at hnode
      have : lst = [] := (Option.some.inj hnode).symm
      subst this
      simp at helst
    · rw [if_neg hp] at hnode
      obtain ⟨ip, hipmem, hipeq⟩ := mapM_option_mem hnode e helst
      obtain ⟨fromL, toL, src, h1, h2, h3, rfl⟩ := edge_of_input_some hipeq
      obtain ⟨j, hjeq⟩ := List.mem_iff_get.mp hnodemem
      have hip2 : ip.2 ∈ node.inputs := by
        have hg := List.mem_enum_iff_getElem?.mp hipmem
        have hlt : ip.1 < node.inputs.length := by
          by_contra hc
          rw [List.getElem?_eq_none (by omega)] at hg
          exact Option.noConfusion hg
        rw [List.getElem?_eq_getElem hlt] at hg
        have hi2 := Option.some.inj hg
        rw [← hi2]
        exact List.getElem_mem hlt
      obtain ⟨i, hij, hident⟩ := htopo j.1 j.2 ip.2 (by rw [hjeq]; exact hip2)
      have hfi : umap_find (create_layer_ids f) ip.2.1 = some i := by
        rw [← hident]
        exact umap_find_layer f hnd i _
      have hfj : umap_find (create_layer_ids f) node.ident = some j.1 := by
        rw [← hjeq]
        exact umap_find_layer f hnd j.1 j.2
      have hfrom : fromL = i := by
        rw [h1] at hfi
        exact Option.some.inj hfi
      have hto : toL = j.1 := by
        rw [h2] at hfj
        exact Option.some.inj hfj
      show fromL < toL
      omega

/-- Witness for C2 at a concrete graph: a Parameter feeding a consumer;
ids are `[0, 1]` and the single edge goes from layer 0 to layer 1. -/
theorem layer_ids_topological_witness :
    ((create_layer_ids sampleGraph).map (fun p => p.2) = List.range 2) ∧
    ∀ e ∈ [Edge.mk 0 0 1 0], e.from_layer < e.to_layer := by
  have hnd : (sampleGraph.ops.map (fun n => n.ident)).Nodup := by
    simp [sampleGraph]
  have htopo : ∀ j (hj : j < sampleGraph.ops.length),
      ∀ p ∈ (sampleGraph.ops.get ⟨j, hj⟩).inputs,
      ∃ i, ∃ hij : i < j,
        (sampleGraph.ops.get ⟨i, Nat.lt_trans hij hj⟩).ident = p.1 := by
    intro j hj p hp
    have hj2 : j = 0 ∨ j = 1 := by
      simp [sampleGraph] at hj
      omega
    rcases hj2 with rfl | rfl
    · simp [sampleGraph] at hp
    · simp [sampleGraph] at hp
      subst hp
      exact ⟨0, by omega, rfl⟩
  have h := layer_ids_topological sampleGraph hnd htopo
  refine ⟨h.1.1, ?_⟩
  apply h.2
  exact ⟨[Edge.mk 0 0 1 0], rfl, List.Perm.refl _, by simp⟩

instance : Inhabited WNode where
  default := ⟨0, "", "", false, [], [], []⟩

/-- The fields produced for a node in execution-statistics mode: exactly the
string-valued runtime-info entries, in order, minus the `layerType` key. -/
def exec_fields (rt : List (String × RTVariant)) : List (String × String) :=
  rt.filterMap (fun p => match p.2 with
    | .vstr v => if p.1 = "layerType" then none else some (p.1, v)
    | .vother => none)

/-- The persisted type name before translation in execution-statistics mode:
the last string-valued `layerType` entry wins, else the node's own type
name. -/
def exec_type_override (rt : List (String × RTVariant)) (tn : String) : String :=
  rt.foldl (fun acc p => match p.2 with
    | .vstr v => if p.1 = "layerType" then v else acc
    | .vother => acc) tn

theorem mapM_option_eq_map {α β : Type} (g : α → Option β) (hf : α → β) :
    ∀ l : List α, (∀ a ∈ l, g a = some (hf a)) → l.mapM g = some (l.map hf) := by
  intro l
  induction l with
  | nil => intro; rfl
  | cons a t ih =>
    intro h
    rw [List.mapM_cons, h a (by simp), ih (fun x hx => h x (by simp [hx]))]
    rfl

theorem node_of_eq (f : WFunction)
    (hnd : (f.ops.map (fun n => n.ident)).Nodup)
    (i : Nat) (hi : i < f.ops.length) :
    node_of f ((f.ops.get ⟨i, hi⟩).ident) = some (f.ops.get ⟨i, hi⟩) := by
  unfold node_of
  have hsome : (f.ops.find?
      (fun m => m.ident == (f.ops.get ⟨i, hi⟩).ident)).isSome := by
    rw [List.find?_isSome]
    exact ⟨f.ops.get ⟨i, hi⟩, List.get_mem f.ops i hi, by simp⟩
  obtain ⟨p, hp⟩ := Option.isSome_iff_exists.mp hsome
  have hpm := List.mem_of_find?_eq_some hp
  have hpk : p.ident = (f.ops.get ⟨i, hi⟩).ident := by
    have := List.find?_some hp
    simp only [beq_iff_eq] at this
    exact this
  obtain ⟨m, hm⟩ := List.mem_iff_get.mp hpm
  have h1 : f.ops[m.1] = p := by
    simpa [List.get_eq_getElem] using hm
  have hmaps : (f.ops.map (fun n => n.ident)).get ⟨m.1, by simp⟩ =
      (f.ops.map (fun n => n.ident)).get ⟨i, by simp; exact hi⟩ := by
    simp only [List.get_eq_getElem, List.getElem_map]
    rw [h1]
    simpa [List.get_eq_getElem] using hpk
  have hmi : m.1 = i := by
    have := (List.Nodup.get_inj_iff hnd).mp hmaps
    simpa using this
  rw [hp]
  have : p = f.ops.get ⟨i, hi⟩ := by
    rw [← hm]
    congr 1
    exact Fin.ext hmi
  rw [this]

theorem umap_find_isSome (f : WFunction) (node : WNode) (h : node ∈ f.ops) :
    (umap_find (create_layer_ids f) node.ident).isSome := by
  obtain ⟨j, hjeq⟩ := List.mem_iff_get.mp h
  have hfind : (List.find? (fun p => p.1 == node.ident)
      (create_layer_ids f).reverse).isSome := by
    rw [List.find?_isSome]
    refine ⟨(node.ident, j.1), ?_, by simp⟩
    apply List.mem_reverse.mpr
    unfold create_layer_ids
    apply List.mem_map.mpr
    refine ⟨(j.1, node), ?_, rfl⟩
    apply List.mem_enum_iff_getElem?.mpr
    simp only
    rw [List.getElem?_eq_getElem j.2]
    rw [show f.ops[j.1] = node from by simpa [List.get_eq_getElem] using hjeq]
  obtain ⟨p, hp⟩ := Option.isSome_iff_exists.mp hfind
  unfold umap_find
  rw [hp]
  rfl

theorem visit_exec_spec (rt : List (String × RTVariant)) :
    ∀ fields tn, visit_exec_graph_node rt fields tn =
      (fields ++ exec_fields rt, exec_type_override rt tn) := by
  induction rt with
  | nil => intro fields tn; simp [visit_exec_graph_node, exec_fields, exec_type_override]
  | cons p t ih =>
    intro fields tn
    cases hv : p.2 with
    | vstr v =>
      by_cases hlt : p.1 = "layerType"
      · have h1 : visit_exec_graph_node (p :: t) fields tn =
            visit_exec_graph_node t fields v := by
          simp [visit_exec_graph_node, hv, hlt]
        have h2 : exec_fields (p :: t) = exec_fields t := by
          simp [exec_fields, hv, hlt]
        have h3 : exec_type_override (p :: t) tn = exec_type_override t v := by
          simp [exec_type_override, hv, hlt]
        rw [h1, h2, h3, ih]
      · have h1 : visit_exec_graph_node (p :: t) fields tn =
            visit_exec_graph_node t (fields ++ [(p.1, v)]) tn := by
          simp [visit_exec_graph_node, hv, hlt]
        have h2 : exec_fields (p :: t) = (p.1, v) :: exec_fields t := by
          simp [exec_fields, hv, hlt]
        have h3 : exec_type_override (p :: t) tn = exec_type_override t tn := by
          simp [exec_type_override, hv, hlt]
        rw [h1, h2, h3, ih]
        simp
    | vother =>
      have h1 : visit_exec_graph_node (p :: t) fields tn =
          visit_exec_graph_node t fields tn := by
        simp [visit_exec_graph_node, hv]
      have h2 : exec_fields (p :: t) = exec_fields t := by
        simp [exec_fields, hv]
      have h3 : exec_type_override (p :: t) tn = exec_type_override t tn := by
        simp [exec_type_override, hv]
      rw [h1, h2, h3, ih]

theorem write_layer_step (exec : Bool) (bc : Nat → WNode → Bool)
    (custom : List (String × (WNode → Bool))) (lids : List (Nat × Nat))
    (st : List LayerRecord × List String × List Nat) (node : WNode)
    (id : Nat) (hid : umap_find lids node.ident = some id) :
    write_layer exec bc custom lids st node = some
      (st.1 ++ [⟨id, (get_node_unique_name st.2.1 node.friendly_name).1,
          (if exec then none else some (get_opset_name bc custom node)),
          translate_type_name (if exec
            then exec_type_override node.rt_info node.type_name
            else (visit_attributes node.attrs ⟨[], st.2.2, node.type_name⟩).type_name),
          (if exec then exec_fields node.rt_info
            else (visit_attributes node.attrs ⟨[], st.2.2, node.type_name⟩).fields)⟩],
        (get_node_unique_name st.2.1 node.friendly_name).2,
        (if exec then st.2.2
          else (visit_attributes node.attrs ⟨[], st.2.2, node.type_name⟩).bin)) := by
  unfold write_layer
  rw [hid]
  cases exec with
  | true =>
    simp only [Option.bind, if_true, reduceIte]
    rw [visit_exec_spec]
    simp [Option.bind, pure]
  | false =>
    simp [Option.bind, pure]

theorem write_fold_spec (exec : Bool) (bc : Nat → WNode → Bool)
    (custom : List (String × (WNode → Bool))) (lids : List (Nat × Nat)) :
    ∀ (l : List WNode) (st : List LayerRecord × List String × List Nat),
      (∀ node ∈ l, (umap_find lids node.ident).isSome) →
      ∃ st2, l.foldlM (write_layer exec bc custom lids) st = some st2 ∧
        st2.1.length = st.1.length + l.length ∧
        (∀ k, k < st.1.length → st2.1[k]? = st.1[k]?) ∧
        (exec = true → st2.2.2 = st.2.2) ∧
        ∀ k (hk : k < l.length),
          ∃ name fields tn2,
            st2.1[st.1.length + k]? =
              some ⟨(umap_find lids (l.get ⟨k, hk⟩).ident).getD 0, name,
                (if exec then none
                  else some (get_opset_name bc custom (l.get ⟨k, hk⟩))),
                translate_type_name tn2, fields⟩ ∧
            (exec = true →
              fields = exec_fields (l.get ⟨k, hk⟩).rt_info ∧
              tn2 = exec_type_override (l.get ⟨k, hk⟩).rt_info
                (l.get ⟨k, hk⟩).type_name) := by
  intro l
  induction l with
  | nil =>
    intro st hall
    refine ⟨st, rfl, by simp, fun k hk => rfl, fun _ => rfl,
      fun k hk => absurd hk (by simp)⟩
  | cons node t ih =>
    intro st hall
    obtain ⟨id, hid⟩ := Option.isSome_iff_exists.mp (hall node (by simp))
    have hstep := write_layer_step exec bc custom lids st node id hid
    set rec : LayerRecord :=
      ⟨id, (get_node_unique_name st.2.1 node.friendly_name).1,
        (if exec then none else some (get_opset_name bc custom node)),
        translate_type_name (if exec
          then exec_type_override node.rt_info node.type_name
          else (visit_attributes node.attrs ⟨[], st.2.2, node.type_name⟩).type_name),
        (if exec then exec_fields node.rt_info
          else (visit_attributes node.attrs ⟨[], st.2.2, node.type_name⟩).fields)⟩
      with hrec
    set st1 : List LayerRecord × List String × List Nat :=
      (st.1 ++ [rec], (get_node_unique_name st.2.1 node.friendly_name).2,
        (if exec then st.2.2
          else (visit_attributes node.attrs ⟨[], st.2.2, node.type_name⟩).bin))
      with hst1
    obtain ⟨st2, hfold, hlen, hpre, hbin, hper⟩ :=
      ih st1 (fun m hm => hall m (by simp [hm]))
    refine ⟨st2, ?_, ?_, ?_, ?_, ?_⟩
    · rw [List.foldlM_cons, hstep]
      exact hfold
    · rw [hlen, hst1]
      simp
      omega
    · intro k hk
      have h1 := hpre k (by simp [hst1]; omega)
      rw [h1, hst1]
      simp only
      rw [List.getElem?_append_left hk]
    · intro hex
      rw [hbin hex, hst1]
      simp [hex]
    · intro k hk
      cases k with
      | zero =>
        refine ⟨(get_node_unique_name st.2.1 node.friendly_name).1,
          (if exec then exec_fields node.rt_info
            else (visit_attributes node.attrs ⟨[], st.2.2, node.type_name⟩).fields),
          (if exec then exec_type_override node.rt_info node.type_name
            else (visit_attributes node.attrs ⟨[], st.2.2, node.type_name⟩).type_name),
          ?_, ?_⟩
        · have h1 := hpre st.1.length (by simp [hst1])
          rw [Nat.add_zero, h1, hst1]
          simp only
          rw [List.getElem?_concat_length]
          rw [hrec]
          simp [hid]
        · intro hex
          simp [hex]
      | succ k2 =>
        have hk2 : k2 < t.length := by simpa using hk
        obtain ⟨name, fields, tn2, hgetx, hexx⟩ := hper k2 hk2
        refine ⟨name, fields, tn2, ?_, ?_⟩
        · have hidx : st.1.length + (k2 + 1) = st1.1.length + k2 := by
            rw [hst1]
            simp
            omega
          rw [hidx, hgetx]
          congr 2
        · intro hex
          obtain ⟨hf, ht⟩ := hexx hex
          constructor
          · rw [hf]
            congr 1
          · rw [ht]
            congr 1

/-- Sample graph for the execution-statistics witness: one node whose
runtime info carries `execTimeMcs`, a `layerType` override and one
string-valued statistic, plus an attribute that exec mode must ignore. -/
def execSampleGraph : WFunction :=
  ⟨[⟨0, "Foo", "n", false, [],
     [("execTimeMcs", .vother), ("layerType", .vstr "Bar"), ("k", .vstr "v")],
     [("ignored", .astr "x")]⟩]⟩

/-- C9: the serializer selects execution-statistics mode iff some node's
runtime-info map contains the key `execTimeMcs`; in that mode attribute
visitation is bypassed (no bytes reach the binary sink and the fields are
computed from runtime info alone), only string-valued runtime entries
become fields, and the `layerType` entry is not emitted as a field but
overrides the persisted type name. -/
theorem exec_graph_mode (bc : Nat → WNode → Bool)
    (custom : List (String × (WNode → Bool))) (f : WFunction) :
    (is_exec_graph f = true ↔
      ∃ op ∈ f.ops, ∃ p ∈ op.rt_info, p.1 = "execTimeMcs") ∧
    (is_exec_graph f = true →
      ∃ recs, ngfunction_layers bc custom f = some (recs, []) ∧
        recs.length = f.ops.length ∧
        ∀ j (hj : j < f.ops.length),
          ∃ name,
            recs[j]? = some ⟨(umap_find (create_layer_ids f)
                ((f.ops.get ⟨j, hj⟩).ident)).getD 0, name, none,
              translate_type_name (exec_type_override
                (f.ops.get ⟨j, hj⟩).rt_info (f.ops.get ⟨j, hj⟩).type_name),
              exec_fields (f.ops.get ⟨j, hj⟩).rt_info⟩) := by
  constructor
  · simp [is_exec_graph, List.any_eq_true]
  · intro hex
    obtain ⟨st2, hfold, hlen, hpre, hbin, hper⟩ :=
      write_fold_spec (is_exec_graph f) bc custom (create_layer_ids f) f.ops
        ([], [], []) (fun node hm => umap_find_isSome f node hm)
    refine ⟨st2.1, ?_, by simpa using hlen, ?_⟩
    · unfold ngfunction_layers
      rw [hfold]
      show some (st2.1, st2.2.2) = some (st2.1, [])
      rw [hbin hex]
    · intro j hj
      obtain ⟨name, fields, tn2, hget, hcond⟩ := hper j hj
      obtain ⟨hf2, ht2⟩ := hcond hex
      refine ⟨name, ?_⟩
      have hj0 : (([] : List LayerRecord),
          (([] : List String), ([] : List Nat))).1.length + j = j := by simp
      rw [hj0] at hget
      rw [hget, hf2, ht2, hex]
      simp

/-- Witness for C9 at a concrete graph: exec mode is selected, no bytes are
written, the non-string entry and `layerType` produce no fields, the one
string statistic becomes a field, and `layerType` overrides the persisted
type name. -/
theorem exec_graph_mode_witness :
    is_exec_graph execSampleGraph = true ∧
    ∃ recs, ngfunction_layers (fun _ _ => false) [] execSampleGraph =
        some (recs, []) ∧ recs.length = 1 ∧
      ∃ name, recs[0]? = some ⟨0, name, none, "Bar", [("k", "v")]⟩ := by
  have h := exec_graph_mode (fun _ _ => false) [] execSampleGraph
  have hex : is_exec_graph execSampleGraph = true := by
    apply h.1.mpr
    refine ⟨execSampleGraph.ops.get ⟨0, by simp [execSampleGraph]⟩,
      by simp [execSampleGraph], ("execTimeMcs", .vother), ?_, rfl⟩
    simp [execSampleGraph]
  obtain ⟨recs, hr, hlen, hper⟩ := h.2 hex
  obtain ⟨name, hname⟩ := hper 0 (by simp [execSampleGraph])
  refine ⟨hex, recs, hr, by rw [hlen]; rfl, name, ?_⟩
  rw [hname]
  rfl

/-- C4: for every non-Parameter node, every input port yields exactly one
edge whose source port number is the source node's total input-port count
plus the source output index, and whose destination port number is the
input's index; edges are not deduplicated; Parameter nodes contribute no
edges but still receive a structural layer record.  `srcPos` names the
position of each input's source node in the ordered traversal. -/
theorem edge_extraction_ports (f : WFunction) (bc : Nat → WNode → Bool)
    (custom : List (String × (WNode → Bool)))
    (hnd : (f.ops.map (fun n => n.ident)).Nodup)
    (srcPos : Nat → Nat)
    (hsrc : ∀ j (hj : j < f.ops.length), ∀ p ∈ (f.ops.get ⟨j, hj⟩).inputs,
      ∃ hsp : srcPos p.1 < f.ops.length,
        (f.ops.get ⟨srcPos p.1, hsp⟩).ident = p.1) :
    create_edge_list (create_layer_ids f) f =
      some ((f.ops.enum.map (fun jp =>
        if jp.2.is_param then []
        else jp.2.inputs.enum.map (fun ip =>
          Edge.mk (srcPos ip.2.1)
            ((f.ops.getD (srcPos ip.2.1) default).inputs.length + ip.2.2)
            jp.1 ip.1))).flatten) ∧
    ∃ recs bin, ngfunction_layers bc custom f = some (recs, bin) ∧
      recs.length = f.ops.length := by
  constructor
  · have hf : ∀ node ∈ f.ops, node_edges (create_layer_ids f) f node =
        some (if node.is_param then []
          else node.inputs.enum.map (fun ip =>
            Edge.mk (srcPos ip.2.1)
              ((f.ops.getD (srcPos ip.2.1) default).inputs.length + ip.2.2)
              ((umap_find (create_layer_ids f) node.ident).getD 0) ip.1)) := by
      intro node hmem
      obtain ⟨j, hjeq⟩ := List.mem_iff_get.mp hmem
      unfold node_edges
      by_cases hp : node.is_param
      · rw [if_pos hp, if_pos hp]
      · rw [if_neg hp, if_neg hp]
        apply mapM_option_eq_map
        intro ip hip
        have hip2 : ip.2 ∈ node.inputs := by
          have hg := List.mem_enum_iff_getElem?.mp hip
          have hlt : ip.1 < node.inputs.length := by
            by_contra hc
            rw [List.getElem?_eq_none (by omega)] at hg
            exact Option.noConfusion hg
          rw [List.getElem?_eq_getElem hlt] at hg
          rw [← Option.some.inj hg]
          exact List.getElem_mem hlt
        obtain ⟨hsp, hident⟩ := hsrc j.1 j.2 ip.2 (by rw [hjeq]; exact hip2)
        have hfromL : umap_find (create_layer_ids f) ip.2.1 =
            some (srcPos ip.2.1) := by
          have h0 := umap_find_layer f hnd (srcPos ip.2.1) hsp
          rw [hident] at h0
          exact h0
        have htoL : umap_find (create_layer_ids f) node.ident =
            some j.1 := by
          rw [← hjeq]
          exact umap_find_layer f hnd j.1 j.2
        have hsrcn : node_of f ip.2.1 =
            some (f.ops.get ⟨srcPos ip.2.1, hsp⟩) := by
          have h0 := node_of_eq f hnd (srcPos ip.2.1) hsp
          rw [hident] at h0
          exact h0
        have hcount : (f.ops.get ⟨srcPos ip.2.1, hsp⟩).inputs.length =
            (f.ops.getD (srcPos ip.2.1) default).inputs.length := by
          rw [List.getD_eq_getElem f.ops default hsp]
          rw [List.get_eq_getElem]
        unfold edge_of_input
        rw [hfromL, htoL, hsrcn]
        simp [Option.bind, hcount]
        rw [List.getElem?_eq_getElem hsp]
        rfl
    have hmapped := mapM_option_eq_map (node_edges (create_layer_ids f) f) _ f.ops hf
    unfold create_edge_list
    rw [hmapped]
    simp only [Option.map_some', Option.some.injEq]
    congr 1
    apply List.ext_getElem
    · simp
    · intro k hk1 hk2
      simp only [List.getElem_map, List.getElem_enum]
      have hk : k < f.ops.length := by simpa using hk1
      have hid : umap_find (create_layer_ids f) (f.ops[k].ident) = some k := by
        have := umap_find_layer f hnd k hk
        rw [List.get_eq_getElem] at this
        exact this
      by_cases hp : f.ops[k].is_param
      · rw [if_pos hp, if_pos hp]
      · rw [if_neg hp, if_neg hp]
        apply List.map_congr_left
        intro ip hip
        rw [hid]
        rfl
  · obtain ⟨st2, hfold, hlen, hpre, hbin, hper⟩ :=
      write_fold_spec (is_exec_graph f) bc custom (create_layer_ids f) f.ops
        ([], [], []) (fun node hm => umap_find_isSome f node hm)
    refine ⟨st2.1, st2.2.2, ?_, by simpa using hlen⟩
    unfold ngfunction_layers
    rw [hfold]
    rfl

/-- Witness for C4 at a concrete graph: the Parameter/consumer pair yields
exactly one edge with source port `0 + 0` and destination port `0`, and
both nodes (the Parameter included) receive a structural record. -/
theorem edge_extraction_ports_witness :
    create_edge_list (create_layer_ids sampleGraph) sampleGraph =
      some [Edge.mk 0 0 1 0] ∧
    ∃ recs bin, ngfunction_layers (fun _ _ => false) [] sampleGraph =
      some (recs, bin) ∧ recs.length = 2 := by
  have hnd : (sampleGraph.ops.map (fun n => n.ident)).Nodup := by
    simp [sampleGraph]
  have hsrc : ∀ j (hj : j < sampleGraph.ops.length),
      ∀ p ∈ (sampleGraph.ops.get ⟨j, hj⟩).inputs,
      ∃ hsp : (fun _ : Nat => 0) p.1 < sampleGraph.ops.length,
        (sampleGraph.ops.get ⟨(fun _ : Nat => 0) p.1, hsp⟩).ident = p.1 := by
    intro j hj p hp
    have hj2 : j = 0 ∨ j = 1 := by
      simp [sampleGraph] at hj
      omega
    rcases hj2 with rfl | rfl
    · simp [sampleGraph] at hp
    · simp [sampleGraph] at hp
      subst hp
      exact ⟨by simp [sampleGraph], rfl⟩
  have h := edge_extraction_ports sampleGraph (fun _ _ => false) [] hnd
    (fun _ => 0) hsrc
  refine ⟨?_, ?_⟩
  · rw [h.1]
    rfl
  · obtain ⟨recs, bin, hr, hlen⟩ := h.2
    exact ⟨recs, bin, hr, by rw [hlen]; rfl⟩

/-- C8 (amended): every possible `std::sort` outcome of the collected edge
list is sorted by source layer id ascending and is a permutation of the
discovery-order list, and at least one such outcome exists; the relative
order of edges with equal source layer id is NOT specified (`std::sort`
is not a stable sort). -/
theorem edge_sort_sorted_perm (layer_ids : List (Nat × Nat)) (f : WFunction)
    (un : List Edge) (h : create_edge_list layer_ids f = some un) :
    create_edge_mapping_rel layer_ids f
      (un.mergeSort (fun a b => decide (a.from_layer ≤ b.from_layer))) ∧
    ∀ res, create_edge_mapping_rel layer_ids f res →
      res.Perm un ∧ res.Pairwise (fun a b => a.from_layer ≤ b.from_layer) := by
  constructor
  · refine ⟨un, h, List.mergeSort_perm un _, ?_⟩
    have hs := @List.sorted_mergeSort Edge
      (fun a b => decide (a.from_layer ≤ b.from_layer))
      (fun a b c hab hbc => by
        simp only [decide_eq_true_eq] at hab hbc ⊢
        omega)
      (fun a b => by
        simp only [Bool.or_eq_true, decide_eq_true_eq]
        omega)
      un
    exact hs.imp (fun hab => by simpa using hab)
  · rintro res ⟨un2, hun2, hperm, hpair⟩
    rw [h] at hun2
    rw [← Option.some.inj hun2] at hperm
    exact ⟨hperm, hpair⟩

/-- Witness for C8's amended statement: on the fan-out sample graph the
merge-sorted discovery list is a valid outcome, and every valid outcome is
a permutation of the two discovered edges sorted by source layer id. -/
theorem edge_sort_sorted_perm_witness :
    create_edge_mapping_rel (create_layer_ids sampleGraphFanOut)
      sampleGraphFanOut
      ([Edge.mk 0 0 1 0, Edge.mk 0 1 1 1].mergeSort
        (fun a b => decide (a.from_layer ≤ b.from_layer))) ∧
    ∀ res, create_edge_mapping_rel (create_layer_ids sampleGraphFanOut)
        sampleGraphFanOut res →
      res.Perm [Edge.mk 0 0 1 0, Edge.mk 0 1 1 1] ∧
      res.Pairwise (fun a b => a.from_layer ≤ b.from_layer) :=
  edge_sort_sorted_perm (create_layer_ids sampleGraphFanOut) sampleGraphFanOut
    [Edge.mk 0 0 1 0, Edge.mk 0 1 1 1] rfl

/-- Counterexample for C8 as stated: on the fan-out sample graph the two
edges are discovered as `[⟨0,0,1,0⟩, ⟨0,1,1,1⟩]` (equal source layer id 0);
the reversed list is also a valid `std::sort` outcome, so it is not true
that every outcome keeps ties in discovery order. -/
theorem edge_sort_not_stable_counterexample :
    create_edge_mapping_rel (create_layer_ids sampleGraphFanOut)
      sampleGraphFanOut [Edge.mk 0 1 1 1, Edge.mk 0 0 1 0] ∧
    ¬ ∀ res, create_edge_mapping_rel (create_layer_ids sampleGraphFanOut)
        sampleGraphFanOut res →
      res = [Edge.mk 0 0 1 0, Edge.mk 0 1 1 1] := by
  have hrel : create_edge_mapping_rel (create_layer_ids sampleGraphFanOut)
      sampleGraphFanOut [Edge.mk 0 1 1 1, Edge.mk 0 0 1 0] := by
    refine ⟨[Edge.mk 0 0 1 0, Edge.mk 0 1 1 1], rfl, ?_, ?_⟩
    · exact List.Perm.swap (Edge.mk 0 0 1 0) (Edge.mk 0 1 1 1) []
    · simp
  refine ⟨hrel, ?_⟩
  intro hall
  have := hall [Edge.mk 0 1 1 1, Edge.mk 0 0 1 0] hrel
  have hne : (Edge.mk 0 1 1 1) ≠ (Edge.mk 0 0 1 0) := by decide
  exact hne (by injection this)

/-- A tensor dimension (`ngraph::Dimension`): a concrete size, or dynamic
with an optional declared upper bound. -/
inductive Dim where
  | dstatic (n : Nat) : Dim
  | ddyn (bound : Option Nat) : Dim
deriving Repr, DecidableEq

/-- A partial shape (`ngraph::PartialShape`): dynamic rank, or a
static-rank list of dimensions. -/
inductive PShape where
  | dynRank : PShape
  | shapeOf (dims : List Dim) : PShape
deriving Repr, DecidableEq

def Dim.is_dynamic : Dim → Bool
  | .dstatic _ => false
  | .ddyn _ => true

def PShape.is_static : PShape → Bool
  | .dynRank => false
  | .shapeOf dims => dims.all (fun d => !d.is_dynamic)

/-- Modelled from the spec: ngraph's `Dimension::get_max_length` (the
upper-bound accessor used by `dynamic_to_static`) is repository code that
is not under `src/`.  The spec's upper-bound substitution rule reads
"substitute the dimension's declared upper bound as a concrete size
(dimensions with no declared bound are an unsupported case — fail fatally,
do not guess)", so the accessor yields the declared bound and has no
value for an unbounded dynamic dimension. -/
def get_max_length (d : Dim) : Option Nat :=
  match d with
  | .dstatic n => some n
  | .ddyn b => b

/-- `dynamic_to_static` from the source: a fully static shape or a
dynamic-rank shape is returned unchanged; otherwise every dynamic
dimension is replaced by `Dimension(get_max_length)` — its declared upper
bound as a concrete size, fatal (`none`) when there is none (see
`get_max_length`) — and static dimensions are kept. -/
def dynamic_to_static (shape : PShape) : Option PShape :=
  match shape with
  | .dynRank => some .dynRank
  | .shapeOf dims =>
    if (PShape.shapeOf dims).is_static then some (.shapeOf dims)
    else
      (dims.mapM (fun (d : Dim) =>
        if d.is_dynamic then (get_max_length d).map Dim.dstatic
        else some d)).map PShape.shapeOf

mutual
/-- A node as the shape resolver sees it: its output shapes, and the
nested sub-graph it owns when it is a control-flow (`SubGraphOp`) node. -/
inductive SNode where
  | mk (outputs : List PShape) (sub : Option SFunction) : SNode
/-- A graph for the shape resolver: its ordered operation list. -/
inductive SFunction where
  | mk (ops : List SNode) : SFunction
end

def SNode.outputs : SNode → List PShape
  | .mk o _ => o

def SNode.withOutputs : SNode → List PShape → SNode
  | .mk _ s, o => .mk o s

/-- Whether a node has a dynamic output (`Node::is_dynamic`). -/
def SNode.is_dynamic (n : SNode) : Bool :=
  n.outputs.any (fun s => !s.is_static)

mutual
/-- Whether every node of a graph — recursively, nested sub-graphs
included — has only static outputs. -/
def SFunction.all_static : SFunction → Bool
  | .mk ops => ops.attach.all (fun x => SNode.all_static x.1)
termination_by f => sizeOf f
decreasing_by
  have hm := List.sizeOf_lt_of_mem x.2
  simp only [SFunction.mk.sizeOf_spec]
  omega

def SNode.all_static : SNode → Bool
  | .mk outs sub =>
    outs.all (fun s => s.is_static) &&
      (match sub with
       | none => true
       | some g => SFunction.all_static g)
termination_by n => sizeOf n
decreasing_by
  simp only [SNode.mk.sizeOf_spec, Option.some.sizeOf_spec]
  omega
end

mutual
/-- `resolve_dynamic_shapes` from the source.  If no node of the ordered
traversal is dynamic, return `false` with no mutation.  Otherwise clone
the graph (value semantics: the clone starts equal to the original, so the
lock-step size check holds by construction) and walk original and clone in
lock-step; mutation is modelled by returning the updated graph.  The two
external collaborators are parameters: `infer` is
`validate_and_infer_types` (type/shape re-inference of one node) and
`fold` is `constant_fold`, yielding the replacement output shapes on
success and `none` on failure.  On failure the still-dynamic outputs go
through `dynamic_to_static` (fatal for an unbounded dimension) and the
result is applied to the original node too. -/
def resolve_dynamic_shapes (infer : SNode → SNode)
    (fold : SNode → Option (List PShape)) : SFunction → Option (Bool × SFunction)
  | .mk ops =>
    if ops.all (fun n => !n.is_dynamic) then
      some (false, .mk ops)
    else
      match resolve_ops infer fold ops ops with
      | none => none
      | some ops2 => some (true, .mk ops2)

/-- The lock-step loop body of `resolve_dynamic_shapes` over original and
clone node lists (a length mismatch is the `NGRAPH_CHECK` internal error).
`constant_fold` consumes the clone's input values; the clone-side graph
rewiring on a successful fold affects only the discarded clone and is not
tracked. -/
def resolve_ops (infer : SNode → SNode)
    (fold : SNode → Option (List PShape)) :
    List SNode → List SNode → Option (List SNode)
  | [], [] => some []
  | [], _ :: _ => none
  | _ :: _, [] => none
  | SNode.mk outs sub :: rest, clone_op :: clone_rest =>
    let subStep : Option SNode :=
      match sub with
      | none => some (SNode.mk outs none)
      | some g =>
        match resolve_dynamic_shapes infer fold g with
        | none => none
        | some r => some (SNode.mk outs (some r.2))
    match subStep with
    | none => none
    | some op1 =>
      let op2 := infer op1
      let clone2 := infer clone_op
      match fold clone2 with
      | none =>
        match clone2.outputs.mapM dynamic_to_static with
        | none => none
        | some newOuts =>
          match resolve_ops infer fold rest clone_rest with
          | none => none
          | some rest2 => some (op2.withOutputs newOuts :: rest2)
      | some repl =>
        match resolve_ops infer fold rest clone_rest with
        | none => none
        | some rest2 => some (op2.withOutputs repl :: rest2)
end

theorem node_static_not_dynamic (n : SNode) (h : SNode.all_static n = true) :
    n.is_dynamic = false := by
  match n with
  | .mk outs sub =>
    rw [SNode.all_static.eq_def] at h
    rw [Bool.and_eq_true] at h
    rw [List.all_eq_true] at h
    have h1 := h.1
    unfold SNode.is_dynamic SNode.outputs
    rw [List.any_eq_false]
    intro s hs
    rw [h1 s hs]
    decide

/-- C6: if no node anywhere in the graph — recursively, nested sub-graphs
included — has a dynamic output, the shape resolver returns `false`
immediately and performs no mutation: the graph (hence every node's
output shape) is returned unchanged, for any inference and folding
collaborators. -/
theorem resolve_static_no_mutation (infer : SNode → SNode)
    (fold : SNode → Option (List PShape)) (f : SFunction)
    (h : f.all_static = true) :
    resolve_dynamic_shapes infer fold f = some (false, f) := by
  match f with
  | .mk ops =>
    have hall : ops.all (fun n => !n.is_dynamic) = true := by
      rw [List.all_eq_true]
      intro n hn
      have hs : SNode.all_static n = true := by
        rw [SFunction.all_static.eq_def] at h
        rw [List.all_eq_true] at h
        exact h ⟨n, hn⟩ (List.mem_attach ops ⟨n, hn⟩)
      rw [node_static_not_dynamic n hs]
      rfl
    rw [resolve_dynamic_shapes]
    rw [if_pos hall]

/-- Witness for C6 at a concrete fully-static graph (one node with one
static output, no sub-graph), with a folding collaborator that would fail
if it were ever consulted. -/
theorem resolve_static_no_mutation_witness :
    resolve_dynamic_shapes (fun n => n) (fun _ => none)
      (SFunction.mk [SNode.mk [PShape.shapeOf [Dim.dstatic 2]] none]) =
      some (false, SFunction.mk [SNode.mk [PShape.shapeOf [Dim.dstatic 2]] none]) := by
  apply resolve_static_no_mutation
  rw [SFunction.all_static.eq_def, List.all_eq_true]
  intro x hx
  have : x.1 = SNode.mk [PShape.shapeOf [Dim.dstatic 2]] none := by
    have := x.2
    simpa using this
  rw [this, SNode.all_static.eq_def]
  rfl

theorem mapM_option_none {α β : Type} (g : α → Option β) :
    ∀ (l : List α) (a : α), a ∈ l → g a = none → l.mapM g = none := by
  intro l
  induction l with
  | nil => intro a ha; simp at ha
  | cons b t ih =>
    intro a ha hga
    rw [List.mapM_cons]
    rcases List.mem_cons.mp ha with rfl | hat
    · rw [hga]
      rfl
    · cases hgb : g b with
      | none => rfl
      | some x =>
        rw [ih a hat hga]
        rfl

/-- C7: when constant folding of a node fails, every still-dynamic output
dimension with a declared upper bound is replaced by that bound as a
concrete size; a still-dynamic dimension with no declared upper bound is
fatal — the call aborts and no substitute value is guessed.  The third
conjunct shows the fold-failure branch of the resolver applying exactly
this substitution to the node (aborting when the substitution is fatal). -/
theorem upper_bound_substitution (dims : List Dim)
    (hdyn : (PShape.shapeOf dims).is_static = false) :
    ((∀ d ∈ dims, d ≠ Dim.ddyn none) →
      dynamic_to_static (.shapeOf dims) =
        some (.shapeOf (dims.map (fun d => match d with
          | Dim.ddyn (some b) => Dim.dstatic b
          | other => other)))) ∧
    (Dim.ddyn none ∈ dims → dynamic_to_static (.shapeOf dims) = none) ∧
    (∀ (infer : SNode → SNode) (fold : SNode → Option (List PShape)),
      infer (SNode.mk [PShape.shapeOf dims] none) =
        SNode.mk [PShape.shapeOf dims] none →
      fold (SNode.mk [PShape.shapeOf dims] none) = none →
      resolve_dynamic_shapes infer fold
          (SFunction.mk [SNode.mk [PShape.shapeOf dims] none]) =
        (dynamic_to_static (PShape.shapeOf dims)).map
          (fun s => (true, SFunction.mk [SNode.mk [s] none]))) := by
  refine ⟨?_, ?_, ?_⟩
  · intro hnb
    have hcond : ¬ ((PShape.shapeOf dims).is_static = true) := by
      rw [hdyn]
      exact Bool.false_ne_true
    simp only [dynamic_to_static, if_neg hcond]
    have hmap := mapM_option_eq_map
      (fun (d : Dim) => if d.is_dynamic = true
        then Option.map Dim.dstatic (get_max_length d) else some d)
      (fun d => match d with
        | Dim.ddyn (some b) => Dim.dstatic b
        | other => other)
      dims (by
        intro d hd
        match d with
        | Dim.dstatic n => rfl
        | Dim.ddyn (some b) => rfl
        | Dim.ddyn none => exact absurd rfl (hnb _ hd))
    rw [hmap]
    rfl
  · intro hmem
    have hcond : ¬ ((PShape.shapeOf dims).is_static = true) := by
      rw [hdyn]
      exact Bool.false_ne_true
    simp only [dynamic_to_static, if_neg hcond]
    rw [mapM_option_none _ dims (Dim.ddyn none) hmem rfl]
    rfl
  · intro infer fold hinf hfold
    have hdynode : SNode.is_dynamic (SNode.mk [PShape.shapeOf dims] none) = true := by
      unfold SNode.is_dynamic SNode.outputs
      simp [hdyn]
    rw [resolve_dynamic_shapes]
    rw [if_neg (by simp [hdynode])]
    rw [resolve_ops]
    simp only [hinf, hfold]
    cases hds : dynamic_to_static (PShape.shapeOf dims) with
    | none =>
      have hm : (SNode.outputs (SNode.mk [PShape.shapeOf dims] none)).mapM
          dynamic_to_static = none := by
        unfold SNode.outputs
        exact mapM_option_none _ _ _ (by simp) hds
      rw [hm]
      rfl
    | some s =>
      have hm : (SNode.outputs (SNode.mk [PShape.shapeOf dims] none)).mapM
          dynamic_to_static = some [s] := by
        unfold SNode.outputs
        rw [List.mapM_cons, hds]
        rfl
      rw [hm]
      rw [resolve_ops]
      rfl

/-- Witness for C7 at concrete shapes: a dynamic dimension with bound 10
becomes the literal 10, an unbounded dynamic dimension aborts, and the
resolver's fold-failure branch applies the substitution to the node. -/
theorem upper_bound_substitution_witness :
    dynamic_to_static (.shapeOf [Dim.dstatic 1, Dim.ddyn (some 10)]) =
      some (.shapeOf [Dim.dstatic 1, Dim.dstatic 10]) ∧
    dynamic_to_static (.shapeOf [Dim.ddyn none]) = none ∧
    resolve_dynamic_shapes (fun n => n) (fun _ => none)
      (SFunction.mk [SNode.mk [PShape.shapeOf [Dim.ddyn (some 10)]] none]) =
      some (true, SFunction.mk [SNode.mk [PShape.shapeOf [Dim.dstatic 10]] none]) := by
  refine ⟨?_, ?_, ?_⟩
  · have h := (upper_bound_substitution [Dim.dstatic 1, Dim.ddyn (some 10)] rfl).1
      (by decide)
    rw [h]
    rfl
  · exact (upper_bound_substitution [Dim.ddyn none] rfl).2.1 (by simp)
  · have h := (upper_bound_substitution [Dim.ddyn (some 10)] rfl).2.2
      (fun n => n) (fun _ => none) rfl rfl
    rw [h]
    rfl
